import Mathlib

/-!
Verification of the algorithmic core of the `cubit` cubature library.

The Python source represents polynomials as exact symbolic expressions in a
single variable `x`; we embed them as dense coefficient lists over `ℚ`,
lowest degree first.  `moments.py` (the moment-to-recurrence engine) is
embedded three times, reflecting three facets of its semantics:

* `moments.orthopoly` — the value computed (memoization is transparent for
  the value, since the moment function is fixed per instance);
* `moments.orthopolyWithCache` — the same computation with the instance
  cache threaded explicitly, for the caching / idempotence claims;
* `moments.orthopolyE` — the same computation with scalar division made
  fallible (Python division by zero raises), for the error-handling claims.

The catalog modules (`golub_welsch.py`, `ray.py`, `line.py`, `square.py`)
call external numeric routines (mpmath `tridiag_eigen`, scipy `eig_banded`,
numpy `hermegauss`); those routines are not part of this repository, so the
corresponding embeddings are parametrized by the external routine and the
theorems hypothesize only its documented contract.
-/

namespace Cubit

/-- Pointwise addition of coefficient lists (shorter list padded with zeros). -/
def padd : List ℚ → List ℚ → List ℚ
  | [], q => q
  | p, [] => p
  | a :: as, b :: bs => (a + b) :: padd as bs

/-- Coefficientwise negation. -/
def pneg (p : List ℚ) : List ℚ := p.map Neg.neg

/-- Polynomial subtraction on coefficient lists. -/
def psub (p q : List ℚ) : List ℚ := padd p (pneg q)

/-- Scalar multiple of a coefficient list. -/
def psmul (c : ℚ) (p : List ℚ) : List ℚ := p.map (fun a => c * a)

/-- Polynomial product of coefficient lists (convolution). -/
def pmul : List ℚ → List ℚ → List ℚ
  | [], _ => []
  | a :: as, q => padd (psmul a q) ((0 : ℚ) :: pmul as q)

namespace moments

/-- The symbol `x` of `moments.py` (`x = sym.Symbol('x')`), as the
coefficient list of the monomial x. -/
def xq : List ℚ := [0, 1]

/-- The generator sum `sum(coeff*self.moment(i) for i, coeff in iter)` of
`weight_fn.inner`: walks the coefficient list with the running index `i`. -/
def contract (mu : ℕ → ℚ) : ℕ → List ℚ → ℚ
  | _, [] => 0
  | i, coeff :: rest => coeff * mu i + contract mu (i + 1) rest

/-- Embedding of `weight_fn.inner` from `moments.py`: expand the product `p1*p2` and
contract its coefficient list (lowest degree first, as produced by
`enumerate(reversed(prod.all_coeffs()))`) with the moment function. -/
def inner (mu : ℕ → ℚ) (p1 p2 : List ℚ) : ℚ :=
  contract mu 0 (pmul p1 p2)

/-- Embedding of `weight_fn.sqnorm` from `moments.py`. -/
def sqnorm (mu : ℕ → ℚ) (p : List ℚ) : ℚ := inner mu p p

/-- Embedding of `weight_fn.orthopoly` from `moments.py`, value semantics: the memoization
cache only stores previously computed values for the same fixed moment
function, so the value returned is this pure recursion. -/
def orthopoly (mu : ℕ → ℚ) : ℕ → List ℚ
  | 0 => [1]
  | 1 => psub xq [mu 1 / mu 0]
  | n + 2 =>
    let twoprev := orthopoly mu n
    let oneprev := orthopoly mu (n + 1)
    let twoprev_sqnorm := sqnorm mu twoprev
    let oneprev_sqnorm := sqnorm mu oneprev
    let product := inner mu oneprev (pmul xq oneprev)
    let alpha := product / oneprev_sqnorm
    let beta := oneprev_sqnorm / twoprev_sqnorm
    psub (pmul (psub xq [alpha]) oneprev) (psmul beta twoprev)

end moments

open Polynomial

lemma psmul_cons (c a : ℚ) (as : List ℚ) : psmul c (a :: as) = (c * a) :: psmul c as := rfl

lemma pneg_cons (a : ℚ) (as : List ℚ) : pneg (a :: as) = (-a) :: pneg as := rfl

/-- Interpretation of a coefficient list as a Mathlib polynomial. -/
noncomputable def toPoly (l : List ℚ) : ℚ[X] :=
  ∑ i in Finset.range l.length, C (l.getD i 0) * X ^ i

lemma toPoly_nil : toPoly [] = 0 := by simp [toPoly]

lemma toPoly_cons (a : ℚ) (l : List ℚ) :
    toPoly (a :: l) = C a + X * toPoly l := by
  unfold toPoly
  rw [List.length_cons, Finset.sum_range_succ', Finset.mul_sum]
  simp only [List.getD_cons_succ, List.getD_cons_zero, pow_zero, mul_one]
  rw [add_comm]
  congr 1
  refine Finset.sum_congr rfl fun i _ => ?_
  ring

lemma toPoly_coeff (l : List ℚ) (i : ℕ) : (toPoly l).coeff i = l.getD i 0 := by
  induction l generalizing i with
  | nil => simp [toPoly_nil]
  | cons a as ih =>
    rw [toPoly_cons]
    cases i with
    | zero => simp [mul_coeff_zero]
    | succ j => simp [coeff_X_mul, ih]

lemma toPoly_padd (p q : List ℚ) : toPoly (padd p q) = toPoly p + toPoly q := by
  induction p generalizing q with
  | nil => simp [padd, toPoly_nil]
  | cons a as ih =>
    cases q with
    | nil => simp [padd, toPoly_nil]
    | cons b bs =>
      rw [show padd (a :: as) (b :: bs) = (a + b) :: padd as bs from rfl,
        toPoly_cons, ih, toPoly_cons, toPoly_cons, map_add]
      ring

lemma toPoly_psmul (c : ℚ) (p : List ℚ) : toPoly (psmul c p) = C c * toPoly p := by
  induction p with
  | nil => simp [psmul, toPoly_nil]
  | cons a as ih =>
    rw [psmul_cons, toPoly_cons, ih, toPoly_cons, map_mul]
    ring

lemma toPoly_pneg (p : List ℚ) : toPoly (pneg p) = -toPoly p := by
  induction p with
  | nil => simp [pneg, toPoly_nil]
  | cons a as ih =>
    rw [pneg_cons, toPoly_cons, ih, toPoly_cons, map_neg]
    ring

lemma toPoly_psub (p q : List ℚ) : toPoly (psub p q) = toPoly p - toPoly q := by
  rw [psub, toPoly_padd, toPoly_pneg, sub_eq_add_neg]

lemma toPoly_pmul (p q : List ℚ) : toPoly (pmul p q) = toPoly p * toPoly q := by
  induction p with
  | nil => simp [pmul, toPoly_nil]
  | cons a as ih =>
    rw [show pmul (a :: as) q = padd (psmul a q) ((0 : ℚ) :: pmul as q) from rfl,
      toPoly_padd, toPoly_psmul, toPoly_cons, ih, toPoly_cons, C_0]
    ring

lemma toPoly_xq : toPoly moments.xq = X := by
  rw [moments.xq, toPoly_cons, toPoly_cons, toPoly_nil, C_0, C_1]
  ring

lemma toPoly_single (c : ℚ) : toPoly [c] = C c := by
  rw [toPoly_cons, toPoly_nil]
  ring

lemma toPoly_natDegree_lt (l : List ℚ) (h : l ≠ []) : (toPoly l).natDegree < l.length := by
  have h1 : 1 ≤ l.length := List.length_pos.mpr h
  have hle : (toPoly l).natDegree ≤ l.length - 1 := by
    refine natDegree_le_iff_coeff_eq_zero.mpr fun N hN => ?_
    rw [toPoly_coeff]
    exact List.getD_eq_default _ _ (by omega)
  omega

/-- Contraction of a polynomial's coefficients with the moment function, the
proof-side counterpart of the sum inside `weight_fn.inner`. -/
noncomputable def momSum (mu : ℕ → ℚ) (f : ℚ[X]) : ℚ :=
  ∑ i in Finset.range (f.natDegree + 1), f.coeff i * mu i

lemma momSum_eq_range (mu : ℕ → ℚ) {f : ℚ[X]} {N : ℕ} (h : f.natDegree < N) :
    momSum mu f = ∑ i in Finset.range N, f.coeff i * mu i := by
  refine Finset.sum_subset (Finset.range_subset.mpr (by omega)) fun i hi hni => ?_
  simp only [Finset.mem_range, not_lt] at hni
  rw [coeff_eq_zero_of_natDegree_lt (by omega), zero_mul]

lemma momSum_add (mu : ℕ → ℚ) (f g : ℚ[X]) :
    momSum mu (f + g) = momSum mu f + momSum mu g := by
  have h1 := le_max_left f.natDegree g.natDegree
  have h2 := le_max_right f.natDegree g.natDegree
  have h3 := natDegree_add_le f g
  set N := max f.natDegree g.natDegree + 1 with hN
  rw [momSum_eq_range mu (show (f + g).natDegree < N by omega),
    momSum_eq_range mu (show f.natDegree < N by omega),
    momSum_eq_range mu (show g.natDegree < N by omega),
    ← Finset.sum_add_distrib]
  refine Finset.sum_congr rfl fun i _ => ?_
  rw [coeff_add]
  ring

lemma momSum_C_mul (mu : ℕ → ℚ) (c : ℚ) (f : ℚ[X]) :
    momSum mu (C c * f) = c * momSum mu f := by
  rw [momSum_eq_range mu
      (lt_of_le_of_lt (natDegree_C_mul_le c f) (Nat.lt_succ_self _)),
    momSum, Finset.mul_sum]
  refine Finset.sum_congr rfl fun i _ => ?_
  rw [coeff_C_mul]
  ring

lemma momSum_neg (mu : ℕ → ℚ) (f : ℚ[X]) : momSum mu (-f) = -momSum mu f := by
  have h : (-f : ℚ[X]) = C (-1) * f := by
    rw [map_neg, map_one]
    ring
  rw [h, momSum_C_mul]
  ring

lemma momSum_sub (mu : ℕ → ℚ) (f g : ℚ[X]) :
    momSum mu (f - g) = momSum mu f - momSum mu g := by
  rw [sub_eq_add_neg, momSum_add, momSum_neg, sub_eq_add_neg]

/-- The weight-function inner product on the polynomial side. -/
noncomputable def pinner (mu : ℕ → ℚ) (f g : ℚ[X]) : ℚ := momSum mu (f * g)

lemma pinner_comm (mu : ℕ → ℚ) (f g : ℚ[X]) : pinner mu f g = pinner mu g f := by
  rw [pinner, pinner, mul_comm]

lemma listContract_eq_momSum (mu : ℕ → ℚ) (l : List ℚ) :
    (∑ i in Finset.range l.length, l.getD i 0 * mu i) = momSum mu (toPoly l) := by
  cases l with
  | nil => simp [toPoly_nil, momSum]
  | cons a as =>
    rw [momSum_eq_range mu (toPoly_natDegree_lt (a :: as) (by simp))]
    refine Finset.sum_congr rfl fun i _ => ?_
    rw [toPoly_coeff]

lemma contract_eq_range (mu : ℕ → ℚ) (l : List ℚ) :
    ∀ i, moments.contract mu i l = ∑ j in Finset.range l.length, l.getD j 0 * mu (i + j) := by
  induction l with
  | nil =>
    intro i
    simp [moments.contract]
  | cons c rest ih =>
    intro i
    rw [show moments.contract mu i (c :: rest)
        = c * mu i + moments.contract mu (i + 1) rest from rfl,
      ih (i + 1), List.length_cons, Finset.sum_range_succ']
    simp only [List.getD_cons_succ, List.getD_cons_zero]
    rw [add_comm]
    congr 1
    refine Finset.sum_congr rfl fun j _ => ?_
    congr 2
    omega

lemma inner_eq_range (mu : ℕ → ℚ) (p q : List ℚ) :
    moments.inner mu p q
      = ∑ i in Finset.range (pmul p q).length, (pmul p q).getD i 0 * mu i := by
  show moments.contract mu 0 (pmul p q) = _
  rw [contract_eq_range]
  refine Finset.sum_congr rfl fun j _ => ?_
  rw [Nat.zero_add]

lemma inner_eq_pinner (mu : ℕ → ℚ) (p q : List ℚ) :
    moments.inner mu p q = pinner mu (toPoly p) (toPoly q) := by
  rw [inner_eq_range, listContract_eq_momSum, toPoly_pmul]
  rfl

lemma sqnorm_eq_pinner (mu : ℕ → ℚ) (p : List ℚ) :
    moments.sqnorm mu p = pinner mu (toPoly p) (toPoly p) :=
  inner_eq_pinner mu p p

/-- The orthogonal polynomial family on the proof side. -/
noncomputable def P (mu : ℕ → ℚ) (n : ℕ) : ℚ[X] := toPoly (moments.orthopoly mu n)

/-- The recurrence coefficient alpha of `moments.py`, as an inner-product ratio. -/
noncomputable def alphaQ (mu : ℕ → ℚ) (n : ℕ) : ℚ :=
  pinner mu (P mu n) (X * P mu n) / pinner mu (P mu n) (P mu n)

/-- The recurrence coefficient beta of `moments.py`, as a ratio of square norms. -/
noncomputable def betaQ (mu : ℕ → ℚ) (n : ℕ) : ℚ :=
  pinner mu (P mu (n + 1)) (P mu (n + 1)) / pinner mu (P mu n) (P mu n)

lemma P_zero (mu : ℕ → ℚ) : P mu 0 = 1 := by
  rw [P]
  simp only [moments.orthopoly]
  rw [toPoly_single, C_1]

lemma P_one (mu : ℕ → ℚ) : P mu 1 = X - C (mu 1 / mu 0) := by
  rw [P]
  simp only [moments.orthopoly]
  rw [toPoly_psub, toPoly_xq, toPoly_single]

lemma P_step (mu : ℕ → ℚ) (n : ℕ) :
    P mu (n + 2) = (X - C (alphaQ mu (n + 1))) * P mu (n + 1) - C (betaQ mu n) * P mu n := by
  simp only [P, alphaQ, betaQ]
  simp only [moments.orthopoly]
  simp only [toPoly_psub, toPoly_pmul, toPoly_psmul, toPoly_xq, toPoly_single,
    inner_eq_pinner, sqnorm_eq_pinner, toPoly_pmul]

lemma X_mul_P (mu : ℕ → ℚ) (n : ℕ) :
    X * P mu (n + 1) =
      P mu (n + 2) + C (alphaQ mu (n + 1)) * P mu (n + 1) + C (betaQ mu n) * P mu n := by
  rw [P_step]
  ring

lemma momSum_one (mu : ℕ → ℚ) : momSum mu 1 = mu 0 := by
  rw [momSum, natDegree_one, Finset.sum_range_one]
  simp

lemma momSum_X (mu : ℕ → ℚ) : momSum mu X = mu 1 := by
  rw [momSum, natDegree_X, Finset.sum_range_succ, Finset.sum_range_one]
  simp

lemma pinner_one_one (mu : ℕ → ℚ) : pinner mu 1 1 = mu 0 := by
  rw [pinner, one_mul, momSum_one]

lemma alphaQ_zero (mu : ℕ → ℚ) : alphaQ mu 0 = mu 1 / mu 0 := by
  simp only [alphaQ, P_zero, pinner, mul_one, one_mul, momSum_X, momSum_one]

lemma X_mul_P_zero (mu : ℕ → ℚ) : X * P mu 0 = P mu 1 + C (alphaQ mu 0) * P mu 0 := by
  rw [P_zero, P_one, alphaQ_zero, mul_one, mul_one]
  ring

lemma pinner_comb (mu : ℕ → ℚ) (a b : ℚ) (f g h : ℚ[X]) :
    pinner mu ((X - C a) * f - C b * g) h =
      pinner mu (X * f) h - a * pinner mu f h - b * pinner mu g h := by
  have hh : ((X - C a) * f - C b * g) * h
      = X * f * h - (C a * (f * h) + C b * (g * h)) := by ring
  rw [pinner, hh, momSum_sub, momSum_add, momSum_C_mul, momSum_C_mul,
    pinner, pinner, pinner]
  ring

lemma pinner_right3 (mu : ℕ → ℚ) (a b : ℚ) (f g h k : ℚ[X]) :
    pinner mu f (g + C a * h + C b * k) =
      pinner mu f g + a * pinner mu f h + b * pinner mu f k := by
  have hh : f * (g + C a * h + C b * k) = f * g + (C a * (f * h) + C b * (f * k)) := by
    ring
  rw [pinner, hh, momSum_add, momSum_add, momSum_C_mul, momSum_C_mul,
    pinner, pinner, pinner]
  ring

lemma pinner_right2 (mu : ℕ → ℚ) (a : ℚ) (f g h : ℚ[X]) :
    pinner mu f (g + C a * h) = pinner mu f g + a * pinner mu f h := by
  have hh : f * (g + C a * h) = f * g + C a * (f * h) := by ring
  rw [pinner, hh, momSum_add, momSum_C_mul, pinner, pinner]

lemma pinner_X_swap (mu : ℕ → ℚ) (f g : ℚ[X]) :
    pinner mu (X * f) g = pinner mu f (X * g) := by
  rw [pinner, pinner]
  congr 1
  ring

lemma P_monic_natDegree (mu : ℕ → ℚ) (n : ℕ) :
    (P mu n).Monic ∧ (P mu n).natDegree = n := by
  induction n using Nat.strong_induction_on with
  | _ n ih =>
  rcases n with _ | (_ | N)
  · rw [P_zero]
    exact ⟨monic_one, natDegree_one⟩
  · rw [P_one]
    exact ⟨monic_X_sub_C _, natDegree_X_sub_C _⟩
  · obtain ⟨h1m, h1d⟩ := ih (N + 1) (by omega)
    obtain ⟨h0m, h0d⟩ := ih N (by omega)
    have hfm : ((X - C (alphaQ mu (N + 1))) * P mu (N + 1)).Monic :=
      (monic_X_sub_C _).mul h1m
    have hfd : ((X - C (alphaQ mu (N + 1))) * P mu (N + 1)).natDegree = N + 2 := by
      rw [(monic_X_sub_C _).natDegree_mul h1m, natDegree_X_sub_C, h1d]
      omega
    have hgd : (C (betaQ mu N) * P mu N).natDegree ≤ N :=
      le_trans (natDegree_C_mul_le _ _) (le_of_eq h0d)
    have hdlt : (C (betaQ mu N) * P mu N).natDegree
        < ((X - C (alphaQ mu (N + 1))) * P mu (N + 1)).natDegree := by omega
    have hdeq := natDegree_sub_eq_left_of_natDegree_lt hdlt
    rw [P_step]
    refine ⟨?_, by rw [hdeq, hfd]⟩
    rw [Polynomial.Monic, leadingCoeff, hdeq, coeff_sub,
      coeff_eq_zero_of_natDegree_lt hdlt, sub_zero]
    exact hfm.coeff_natDegree

lemma P_orth (mu : ℕ → ℚ) (n : ℕ) :
    (∀ k, k < n → pinner mu (P mu k) (P mu k) ≠ 0) →
      ∀ m, m < n → pinner mu (P mu n) (P mu m) = 0 := by
  induction n using Nat.strong_induction_on with
  | _ n ih =>
  rcases n with _ | (_ | N)
  · intro _ m hm
    exact absurd hm (Nat.not_lt_zero m)
  · intro hnorm m hm
    interval_cases m
    have h0 : pinner mu (P mu 0) (P mu 0) ≠ 0 := hnorm 0 (by omega)
    have h0' : mu 0 ≠ 0 := by
      rw [P_zero, pinner_one_one] at h0
      exact h0
    rw [P_one, P_zero, pinner]
    have hexp : (X - C (mu 1 / mu 0)) * (1 : ℚ[X]) = X - C (mu 1 / mu 0) * 1 := by ring
    rw [hexp, momSum_sub, momSum_C_mul, momSum_X, momSum_one, div_mul_cancel₀ _ h0',
      sub_self]
  · intro hnorm m hm
    have ihh : ∀ a b, a < N + 2 → b < a → pinner mu (P mu a) (P mu b) = 0 :=
      fun a b ha hb => ih a ha (fun k hk => hnorm k (by omega)) b hb
    rw [P_step, pinner_comb]
    rcases (by omega : m = N + 1 ∨ m = N ∨ m < N) with hm1 | hm0 | hmlt
    · subst hm1
      rw [pinner_comm mu (X * P mu (N + 1)) (P mu (N + 1)),
        alphaQ, div_mul_cancel₀ _ (hnorm (N + 1) (by omega)),
        pinner_comm mu (P mu N) (P mu (N + 1)), ihh (N + 1) N (by omega) (by omega)]
      ring
    · rw [hm0]
      rw [ihh (N + 1) N (by omega) (by omega),
        betaQ, div_mul_cancel₀ _ (hnorm N (by omega)),
        pinner_X_swap]
      rcases N with _ | M
      · rw [X_mul_P_zero, pinner_right2, ihh 1 0 (by omega) (by omega)]
        ring
      · rw [X_mul_P mu M, pinner_right3,
          ihh (M + 2) (M + 1) (by omega) (by omega), ihh (M + 2) M (by omega) (by omega)]
        ring
    · rw [ihh (N + 1) m (by omega) (by omega), ihh N m (by omega) (by omega),
        pinner_X_swap]
      rcases m with _ | M
      · have hN1 : 1 ≤ N := by omega
        rw [X_mul_P_zero, pinner_right2, ihh (N + 1) 1 (by omega) (by omega),
          ihh (N + 1) 0 (by omega) (by omega)]
        ring
      · rw [X_mul_P mu M, pinner_right3,
          ihh (N + 1) (M + 2) (by omega) (by omega),
          ihh (N + 1) (M + 1) (by omega) (by omega),
          ihh (N + 1) M (by omega) (by omega)]
        ring

/-- Error kinds that Python code in this repository can raise. -/
inductive PyErr
  | ZeroDivisionError
  | NameError
  | DomainError
  | ValueError
  deriving DecidableEq

/-- Python scalar division: raises `ZeroDivisionError` on a zero denominator. -/
def qdiv (a b : ℚ) : Except PyErr ℚ :=
  if b = 0 then Except.error PyErr.ZeroDivisionError else Except.ok (a / b)

namespace moments

/-- The instance cache `self._cache` of `weight_fn`, keyed by degree. -/
abbrev Cache := ℕ → Option (List ℚ)

/-- A dict assignment `self._cache[n] = p`. -/
def cacheInsert (c : Cache) (n : ℕ) (p : List ℚ) : Cache :=
  fun m => if m = n then some p else c m

/-- Embedding of `weight_fn.orthopoly` with the instance cache threaded explicitly: a hit
returns the stored polynomial unchanged, a miss computes the value (the two
recursive calls reading and updating the same cache, in source order) and
stores it under the degree key before returning it. -/
def orthopolyWithCache (mu : ℕ → ℚ) : ℕ → Cache → List ℚ × Cache
  | 0, c =>
    match c 0 with
    | some p => (p, c)
    | none => ([1], cacheInsert c 0 [1])
  | 1, c =>
    match c 1 with
    | some p => (p, c)
    | none => (psub xq [mu 1 / mu 0], cacheInsert c 1 (psub xq [mu 1 / mu 0]))
  | n + 2, c =>
    match c (n + 2) with
    | some p => (p, c)
    | none =>
      let r2 := orthopolyWithCache mu n c
      let r1 := orthopolyWithCache mu (n + 1) r2.2
      let twoprev := r2.1
      let oneprev := r1.1
      let twoprev_sqnorm := sqnorm mu twoprev
      let oneprev_sqnorm := sqnorm mu oneprev
      let product := inner mu oneprev (pmul xq oneprev)
      let alpha := product / oneprev_sqnorm
      let beta := oneprev_sqnorm / twoprev_sqnorm
      let p := psub (pmul (psub xq [alpha]) oneprev) (psmul beta twoprev)
      (p, cacheInsert r1.2 (n + 2) p)

/-- A `weight_fn` instance: its moment function and its own cache. -/
structure weight_fn where
  moment : ℕ → ℚ
  cache : Cache

/-- Embedding of `weight_fn.__init__`: it stores the moment function and creates a fresh,
per-instance empty cache (`self._cache = dict()`). -/
def weight_fn.init (momfunc : ℕ → ℚ) : weight_fn :=
  ⟨momfunc, fun _ => none⟩

/-- The `orthopoly` method on an instance: computes through the instance
cache and returns the polynomial together with the updated instance. -/
def weight_fn.orthopoly (w : weight_fn) (n : ℕ) : List ℚ × weight_fn :=
  ((orthopolyWithCache w.moment n w.cache).1,
    ⟨w.moment, (orthopolyWithCache w.moment n w.cache).2⟩)

lemma orthopolyWithCache_hit (mu : ℕ → ℚ) {c : Cache} {n : ℕ} {p : List ℚ}
    (h : c n = some p) : orthopolyWithCache mu n c = (p, c) := by
  rcases n with _ | (_ | N) <;> simp [orthopolyWithCache, h]

lemma orthopolyWithCache_store (mu : ℕ → ℚ) (n : ℕ) (c : Cache) :
    (orthopolyWithCache mu n c).2 n = some (orthopolyWithCache mu n c).1 := by
  rcases n with _ | (_ | N)
  · cases hc : c 0 with
    | some p => simp [orthopolyWithCache, hc]
    | none => simp [orthopolyWithCache, hc, cacheInsert]
  · cases hc : c 1 with
    | some p => simp [orthopolyWithCache, hc]
    | none => simp [orthopolyWithCache, hc, cacheInsert]
  · cases hc : c (N + 2) with
    | some p => simp [orthopolyWithCache, hc]
    | none => simp [orthopolyWithCache, hc, cacheInsert]

/-- Every entry of a cache agrees with the pure recursion. -/
def CacheOK (mu : ℕ → ℚ) (c : Cache) : Prop :=
  ∀ m p, c m = some p → p = orthopoly mu m

lemma cacheOK_insert {mu : ℕ → ℚ} {c : Cache} (h : CacheOK mu c) {n : ℕ}
    {p : List ℚ} (hp : p = orthopoly mu n) : CacheOK mu (cacheInsert c n p) := by
  intro m q hq
  simp only [cacheInsert] at hq
  by_cases hmn : m = n
  · rw [if_pos hmn] at hq
    injection hq with h2
    rw [← h2, hmn]
    exact hp
  · rw [if_neg hmn] at hq
    exact h m q hq

lemma orthopolyWithCache_correct (mu : ℕ → ℚ) (n : ℕ) :
    ∀ c : Cache, CacheOK mu c →
      (orthopolyWithCache mu n c).1 = orthopoly mu n
        ∧ CacheOK mu (orthopolyWithCache mu n c).2 := by
  induction n using Nat.strong_induction_on with
  | _ n ih =>
  intro c hc
  rcases n with _ | (_ | N)
  · cases h0 : c 0 with
    | some p =>
      rw [orthopolyWithCache_hit mu h0]
      exact ⟨(hc 0 p h0), hc⟩
    | none =>
      constructor
      · simp [orthopolyWithCache, h0, orthopoly]
      · simp only [orthopolyWithCache, h0]
        exact cacheOK_insert hc (by simp [orthopoly])
  · cases h0 : c 1 with
    | some p =>
      rw [orthopolyWithCache_hit mu h0]
      exact ⟨(hc 1 p h0), hc⟩
    | none =>
      constructor
      · simp [orthopolyWithCache, h0, orthopoly]
      · simp only [orthopolyWithCache, h0]
        exact cacheOK_insert hc (by simp [orthopoly])
  · cases h0 : c (N + 2) with
    | some p =>
      rw [orthopolyWithCache_hit mu h0]
      exact ⟨(hc (N + 2) p h0), hc⟩
    | none =>
      have h2 := ih N (by omega) c hc
      have h1 := ih (N + 1) (by omega) _ h2.2
      constructor
      · simp only [orthopolyWithCache, h0]
        rw [h1.1, h2.1]
        simp only [orthopoly]
      · simp only [orthopolyWithCache, h0]
        refine cacheOK_insert h1.2 ?_
        rw [h1.1, h2.1]
        simp only [orthopoly]

/-- Embedding of `weight_fn.orthopoly` with fallible scalar division threaded through
(`Except`), reflecting that the source performs no zero check before
dividing: the division itself is what can fail. -/
def orthopolyE (mu : ℕ → ℚ) : ℕ → Except PyErr (List ℚ)
  | 0 => Except.ok [1]
  | 1 => do
    let a0 ← qdiv (mu 1) (mu 0)
    Except.ok (psub xq [a0])
  | n + 2 => do
    let twoprev ← orthopolyE mu n
    let oneprev ← orthopolyE mu (n + 1)
    let alpha ← qdiv (inner mu oneprev (pmul xq oneprev)) (sqnorm mu oneprev)
    let beta ← qdiv (sqnorm mu oneprev) (sqnorm mu twoprev)
    Except.ok (psub (pmul (psub xq [alpha]) oneprev) (psmul beta twoprev))

lemma except_bind_error {α β : Type} (e : PyErr) (f : α → Except PyErr β) :
    (Except.error e >>= f) = Except.error e := rfl

lemma except_bind_ok {α β : Type} (a : α) (f : α → Except PyErr β) :
    (Except.ok a >>= f) = f a := rfl

lemma orthopolyE_zero_moment (mu : ℕ → ℚ) (h : mu 0 = 0) :
    ∀ n, 1 ≤ n → orthopolyE mu n = Except.error PyErr.ZeroDivisionError := by
  intro n
  induction n using Nat.strong_induction_on with
  | _ n ih =>
  rcases n with _ | (_ | N)
  · intro h1
    omega
  · intro _
    simp [orthopolyE, qdiv, h, except_bind_error, except_bind_ok]
  · intro _
    rcases N with _ | M
    · have h1 := ih 1 (by omega) (by omega)
      simp [orthopolyE, h1, qdiv, h, except_bind_error, except_bind_ok]
    · have h1 := ih (M + 1) (by omega) (by omega)
      simp [orthopolyE, h1, except_bind_error, except_bind_ok]

end moments

namespace golub_welsch

/-- Sum of squares of the entries of a tracked row vector. -/
def sumsq (l : List ℝ) : ℝ := (l.map fun t => t ^ 2).sum

/-- Embedding of `mp.eye(n)[0,:]`: the first row of the identity matrix. -/
def unitRow : ℕ → List ℝ
  | 0 => []
  | m + 1 => 1 :: List.replicate m 0

/-- Contract of the external symmetric tridiagonal eigensolver
(`mpmath.matrices.eigen_symmetric.tridiag_eigen`): it transforms the tracked
row `z` only by accumulating Givens rotations, so the sum of squares of `z`
is preserved. The solver itself is an external library routine, so it enters
the embedding as a parameter constrained by this contract. -/
def PreservesSumsq (solver : List ℝ → List ℝ → List ℝ → List ℝ × List ℝ) : Prop :=
  ∀ d e z, sumsq (solver d e z).2 = sumsq z

/-- Embedding of `gauss_hermite` from `golub_welsch.py`: zero diagonal, off-diagonal
entries sqrt(k/2) for k = 1..n-1 with a trailing placeholder zero, tracked
row the first identity row; weights are sqrt(pi) times the squared entries
of the returned row. -/
noncomputable def gauss_hermite (solver : List ℝ → List ℝ → List ℝ → List ℝ × List ℝ)
    (n : ℕ) : List ℝ × List ℝ :=
  let d := List.replicate n (0 : ℝ)
  let e := ((List.range' 1 (n - 1)).map fun k => Real.sqrt (k / 2)) ++ [0]
  let z := unitRow n
  let r := solver d e z
  (r.1, r.2.map fun t => Real.sqrt Real.pi * t ^ 2)

/-- Embedding of `gauss_legendre` from `golub_welsch.py`: zero diagonal, off-diagonal
entries k/sqrt(4k^2-1) for k = 1..n-1 with a trailing placeholder zero;
weights are 2 times the squared entries of the returned row. -/
noncomputable def gauss_legendre (solver : List ℝ → List ℝ → List ℝ → List ℝ × List ℝ)
    (n : ℕ) : List ℝ × List ℝ :=
  let d := List.replicate n (0 : ℝ)
  let e := ((List.range' 1 (n - 1)).map fun k => (k : ℝ) / Real.sqrt (4 * (k : ℝ) ^ 2 - 1)) ++ [0]
  let z := unitRow n
  let r := solver d e z
  (r.1, r.2.map fun t => 2 * t ^ 2)

lemma sumsq_unitRow (n : ℕ) (h : 1 ≤ n) : sumsq (unitRow n) = 1 := by
  rcases n with _ | m
  · omega
  · simp [sumsq, unitRow, List.map_replicate, List.sum_replicate]

lemma sum_map_mul_sq (c : ℝ) (l : List ℝ) :
    (l.map fun t => c * t ^ 2).sum = c * sumsq l := by
  rw [sumsq, List.sum_map_mul_left]

end golub_welsch

namespace ray

/-- Diagonal entries of the Jacobi matrix built by `ray.gauss_genlaguerre`:
`J_bands[1,:] = 2*k + alpha - 1` for k = 1..n. -/
def gauss_genlaguerre_diag (n : ℕ) (alpha : ℝ) : Fin n → ℝ :=
  fun k => 2 * ((k.val : ℝ) + 1) + alpha - 1

/-- Off-diagonal entries of the Jacobi matrix built by `ray.gauss_genlaguerre`:
`J_bands[0,1:] = -sqrt(k*(k + alpha))[:-1]`, i.e. -sqrt(k(k+alpha)) for
k = 1..n-1 (zero-based index shifted by one). -/
noncomputable def gauss_genlaguerre_offdiag (alpha : ℝ) : ℕ → ℝ :=
  fun k => -Real.sqrt (((k : ℝ) + 1) * (((k : ℝ) + 1) + alpha))

/-- Diagonal entries of the Jacobi matrix built by `ray.gamma`:
`J_bands[1,:] = 2*k + alpha - 2` for k = 1..n. -/
def gamma_diag (n : ℕ) (alpha : ℝ) : Fin n → ℝ :=
  fun k => 2 * ((k.val : ℝ) + 1) + alpha - 2

/-- Off-diagonal entries of the Jacobi matrix built by `ray.gamma`:
`J_bands[0,1:] = -sqrt(k*(k + alpha))[:-1]`, same expression as in
`ray.gauss_genlaguerre`. -/
noncomputable def gamma_offdiag (alpha : ℝ) : ℕ → ℝ :=
  fun k => -Real.sqrt (((k : ℝ) + 1) * (((k : ℝ) + 1) + alpha))

/-- The symmetric tridiagonal matrix described by banded storage
(diagonal `d`, off-diagonal `e`). -/
def jacobiMatrix (n : ℕ) (d : Fin n → ℝ) (e : ℕ → ℝ) : Matrix (Fin n) (Fin n) ℝ :=
  Matrix.of fun i j =>
    if i = j then d i
    else if i.val + 1 = j.val ∨ j.val + 1 = i.val then e (min i.val j.val)
    else 0

lemma trace_jacobiMatrix (n : ℕ) (d : Fin n → ℝ) (e : ℕ → ℝ) :
    Matrix.trace (jacobiMatrix n d e) = ∑ i, d i := by
  unfold Matrix.trace jacobiMatrix
  simp [Matrix.diag]

end ray

namespace line

/-- Embedding of `line.gaussian`, parametrized by the external
`numpy.polynomial.hermite_e.hermegauss`: affine-maps the nodes by
`loc + scale*nodes` and divides the weights by sqrt(2*pi). -/
noncomputable def gaussian (hermegauss : ℕ → List ℝ × List ℝ) (n : ℕ)
    (loc scale : ℝ) : List ℝ × List ℝ :=
  ((hermegauss n).1.map fun t => loc + scale * t,
    (hermegauss n).2.map fun w => w / Real.sqrt (2 * Real.pi))

lemma sum_map_div (l : List ℝ) (c : ℝ) :
    (l.map fun w => w / c).sum = l.sum / c := by
  induction l with
  | nil => simp
  | cons a as ih =>
    rw [List.map_cons, List.sum_cons, List.sum_cons, ih]
    ring

end line

namespace square

/-- Names in scope inside `square.prod_trapz` at the line
`weights = np.full((m1+1)*(m2+1), h*k)`: the module-level bindings of
`square.py` (its imports and function definitions) together with the local
variables assigned before that line. `h` and `k` are not among them. -/
inductive PyName
  | np | pi | sin | cos | exp | log | sqrt | interval
  | prod_trapz | prod_simps | prod_gauss | prod_newton_cotes | ewing_quincunx
  | ac_9pt | irwin_12pt | radon_7pt | ac_7pt | burnside_8pt | tyler_13pt
  | meister_13pt | irwin_24pt | tyler_12pt | mysovskikh_12pt | maxwell_13pt
  | tyler_21pt | meister_25pt | rr_20pt | chanut_21pt | chanut_21pt2
  | chanut_25pt | chanut_25pt2 | rr_25pt | rr_28pt | rr_37pt | rr_44pt | rr_48pt
  | m1 | m2 | hx | hy | x_nodes | y_nodes
  | h | k
  deriving DecidableEq

/-- The set of bound names at the `weights` line of `prod_trapz`. -/
def scope : List PyName :=
  [.np, .pi, .sin, .cos, .exp, .log, .sqrt, .interval,
   .prod_trapz, .prod_simps, .prod_gauss, .prod_newton_cotes, .ewing_quincunx,
   .ac_9pt, .irwin_12pt, .radon_7pt, .ac_7pt, .burnside_8pt, .tyler_13pt,
   .meister_13pt, .irwin_24pt, .tyler_12pt, .mysovskikh_12pt, .maxwell_13pt,
   .tyler_21pt, .meister_25pt, .rr_20pt, .chanut_21pt, .chanut_21pt2,
   .chanut_25pt, .chanut_25pt2, .rr_25pt, .rr_28pt, .rr_37pt, .rr_44pt, .rr_48pt,
   .m1, .m2, .hx, .hy, .x_nodes, .y_nodes]

/-- Python name resolution: raises `NameError` when the name is unbound. -/
def resolve (nm : PyName) : Except PyErr Unit :=
  if nm ∈ scope then Except.ok () else Except.error PyErr.NameError

/-- Model of `numpy.linspace(a, b, num)` with endpoint included. -/
def linspace (a b : ℚ) (num : ℕ) : List ℚ :=
  if num = 1 then [a]
  else (List.range num).map fun i => a + i * (b - a) / ((num : ℚ) - 1)

/-- Model of `numpy.tile` for a 1-D array. -/
def tile (l : List ℚ) (reps : ℕ) : List ℚ := (List.replicate reps l).flatten

/-- Model of `numpy.repeat` for a 1-D array. -/
def npRepeat (l : List ℚ) (reps : ℕ) : List ℚ := l.flatMap fun a => List.replicate reps a

/-- Embedding of `square.prod_trapz`: computes `hx`, `hy` (Python true division, which
raises `ZeroDivisionError` on a zero count), builds the node grids, then
evaluates `h*k` inside the `np.full` call. Neither `h` nor `k` is bound in
any enclosing scope, so that evaluation raises `NameError`; every statement
after that line is unreachable and is therefore elided (the final result
value below is never produced on any input). -/
def prod_trapz (m1 m2 : ℕ) : Except PyErr ((List ℚ × List ℚ) × List ℚ) := do
  let hx ← qdiv 2 (m1 : ℚ)
  let hy ← qdiv 2 (m2 : ℚ)
  let x_nodes := tile (linspace (-1) 1 (m1 + 1)) (m2 + 1)
  let y_nodes := npRepeat (linspace (-1) 1 (m2 + 1)) (m1 + 1)
  let _ ← resolve PyName.h
  let _ ← resolve PyName.k
  let _ := hx
  let _ := hy
  Except.ok ((x_nodes, y_nodes), [])

lemma prod_trapz_eq (m1 m2 : ℕ) :
    prod_trapz m1 m2 =
      Except.error (if m1 = 0 ∨ m2 = 0 then PyErr.ZeroDivisionError
        else PyErr.NameError) := by
  by_cases h1 : m1 = 0
  · subst h1
    simp [prod_trapz, qdiv, moments.except_bind_error, moments.except_bind_ok]
  · by_cases h2 : m2 = 0
    · subst h2
      simp [prod_trapz, qdiv, h1, moments.except_bind_error, moments.except_bind_ok]
    · simp [prod_trapz, qdiv, h1, h2, resolve, scope,
        moments.except_bind_error, moments.except_bind_ok]

end square

lemma inner_comm_list (mu : ℕ → ℚ) (p q : List ℚ) :
    moments.inner mu p q = moments.inner mu q p := by
  rw [inner_eq_pinner, inner_eq_pinner, pinner_comm]

/-- C1: `weight_fn.orthopoly` satisfies the specified three-term recurrence:
orthopoly(0) = 1 for every moment function, orthopoly(1) = x - mu(1)/mu(0),
and for every n >= 2, orthopoly(n) = (x - alpha)*orthopoly(n-1) -
beta*orthopoly(n-2), where alpha = inner(x*p, p)/inner(p, p) for
p = orthopoly(n-1), and beta = inner(p, p)/inner(q, q) for q = orthopoly(n-2). -/
theorem claim_C1_three_term_recurrence (mu : ℕ → ℚ) :
    moments.orthopoly mu 0 = [1]
      ∧ moments.orthopoly mu 1 = psub moments.xq [mu 1 / mu 0]
      ∧ ∀ n, moments.orthopoly mu (n + 2) =
          psub
            (pmul
              (psub moments.xq
                [moments.inner mu (pmul moments.xq (moments.orthopoly mu (n + 1)))
                    (moments.orthopoly mu (n + 1)) /
                  moments.inner mu (moments.orthopoly mu (n + 1))
                    (moments.orthopoly mu (n + 1))])
              (moments.orthopoly mu (n + 1)))
            (psmul
              (moments.inner mu (moments.orthopoly mu (n + 1))
                  (moments.orthopoly mu (n + 1)) /
                moments.inner mu (moments.orthopoly mu n) (moments.orthopoly mu n))
              (moments.orthopoly mu n)) := by
  refine ⟨rfl, rfl, fun n => ?_⟩
  rw [inner_comm_list mu (pmul moments.xq (moments.orthopoly mu (n + 1)))
    (moments.orthopoly mu (n + 1))]
  simp only [moments.orthopoly, moments.sqnorm]

/-- C3: for every moment function whose square norms at degrees up to N are
nonzero, the polynomials produced by `weight_fn.orthopoly` are pairwise
orthogonal under `weight_fn.inner`. -/
theorem claim_C3_orthogonality (mu : ℕ → ℚ) (N : ℕ)
    (hnorm : ∀ k, k ≤ N →
      moments.inner mu (moments.orthopoly mu k) (moments.orthopoly mu k) ≠ 0) :
    ∀ n m, n ≤ N → m ≤ N → n ≠ m →
      moments.inner mu (moments.orthopoly mu n) (moments.orthopoly mu m) = 0 := by
  have hnorm' : ∀ k, k ≤ N → pinner mu (P mu k) (P mu k) ≠ 0 := by
    intro k hk
    have h := hnorm k hk
    rwa [inner_eq_pinner] at h
  have key : ∀ a b, a ≤ N → b < a →
      moments.inner mu (moments.orthopoly mu a) (moments.orthopoly mu b) = 0 := by
    intro a b ha hb
    have h := P_orth mu a (fun k hk => hnorm' k (by omega)) b hb
    rw [inner_eq_pinner]
    exact h
  intro n m hn hm hne
  rcases Nat.lt_or_ge n m with h | h
  · rw [inner_comm_list]
    exact key m n hm h
  · exact key n m hn (by omega)

/-- Witness for C3 with the Legendre-type moments mu(k) = 1/(k+1) and N = 2. -/
theorem claim_C3_orthogonality_witness :
    moments.inner (fun k => 1 / ((k : ℚ) + 1))
      (moments.orthopoly (fun k => 1 / ((k : ℚ) + 1)) 2)
      (moments.orthopoly (fun k => 1 / ((k : ℚ) + 1)) 1) = 0 :=
  claim_C3_orthogonality (fun k => 1 / ((k : ℚ) + 1)) 2
    (by
      intro k hk
      interval_cases k <;>
        norm_num [moments.inner, moments.contract, moments.sqnorm, moments.orthopoly,
          moments.xq, pmul, padd, psub, pneg, psmul])
    2 1 (by omega) (by omega) (by omega)

/-- C4 counterexample: with the degenerate moment function mu = 0 (so that
mu(0) = 0), orthopoly(1) fails with the ZeroDivisionError of the unchecked
division, not with a DomainError: the claim that it fails with DomainError is
false on the code, which defines no DomainError and performs no zero check. -/
theorem claim_C4_counterexample :
    moments.orthopolyE (fun _ => 0) 1 = Except.error PyErr.ZeroDivisionError
      ∧ moments.orthopolyE (fun _ => 0) 1 ≠ Except.error PyErr.DomainError := by
  constructor
  · simp [moments.orthopolyE, qdiv, moments.except_bind_error]
  · simp [moments.orthopolyE, qdiv, moments.except_bind_error]

/-- C4 amended: for every moment function with mu(0) = 0 and every n >= 1,
`orthopoly n` fails, but with ZeroDivisionError from the division by mu(0)
(the codebase defines no DomainError and never checks for a degenerate
weight function). -/
theorem claim_C4_zero_mass_error (mu : ℕ → ℚ) (h : mu 0 = 0) (n : ℕ) (hn : 1 ≤ n) :
    moments.orthopolyE mu n = Except.error PyErr.ZeroDivisionError :=
  moments.orthopolyE_zero_moment mu h n hn

/-- Witness for C4 amended, at mu = 0 and n = 1. -/
theorem claim_C4_zero_mass_error_witness :
    (fun _ : ℕ => (0 : ℚ)) 0 = 0
      ∧ moments.orthopolyE (fun _ => 0) 1 = Except.error PyErr.ZeroDivisionError :=
  ⟨rfl, claim_C4_zero_mass_error (fun _ => 0) rfl 1 (le_refl 1)⟩

/-- C5 counterexample: `weight_fn.__init__` creates a fresh per-instance
cache, so after computing orthopoly(1) on an instance with moments
mu(k) = k+1 (cached polynomial x - 2), a second instance built from the
constant moment function returns its own polynomial x - 1, not the first
instance's cached polynomial: the claimed cross-contamination does not occur. -/
theorem claim_C5_counterexample :
    ((moments.weight_fn.init fun k => (k : ℚ) + 1).orthopoly 1).1 = [-2, 1]
      ∧ ((moments.weight_fn.init fun _ => (1 : ℚ)).orthopoly 1).1 = [-1, 1]
      ∧ ((moments.weight_fn.init fun _ => (1 : ℚ)).orthopoly 1).1
          ≠ ((moments.weight_fn.init fun k => (k : ℚ) + 1).orthopoly 1).1 := by
  refine ⟨?_, ?_, ?_⟩ <;>
    norm_num [moments.weight_fn.init, moments.weight_fn.orthopoly,
      moments.orthopolyWithCache, moments.xq, psub, padd, pneg]

/-- C5 amended: the memoization cache is per-instance (`self._cache = dict()`
in `__init__`), keyed by degree within one instance only; `orthopoly n` on a
freshly built instance is determined by that instance's own moment function
(it equals the pure recursion on it), so computations on other instances
cannot leak in. -/
theorem claim_C5_no_cross_contamination (mu : ℕ → ℚ) (n : ℕ) :
    ((moments.weight_fn.init mu).orthopoly n).1 = moments.orthopoly mu n := by
  have h := moments.orthopolyWithCache_correct mu n (fun _ => none)
    (fun m p hp => Option.noConfusion hp)
  exact h.1

/-- C7: monicity — with the claim's side condition that all square norms at
degrees up to n are nonzero, `orthopoly n` has degree exactly n and leading
coefficient exactly 1. -/
theorem claim_C7_monicity (mu : ℕ → ℚ) (n : ℕ)
    (hnorm : ∀ k, k ≤ n →
      moments.inner mu (moments.orthopoly mu k) (moments.orthopoly mu k) ≠ 0) :
    (toPoly (moments.orthopoly mu n)).natDegree = n
      ∧ (toPoly (moments.orthopoly mu n)).Monic := by
  obtain ⟨hm, hd⟩ := P_monic_natDegree mu n
  exact ⟨hd, hm⟩

/-- Witness for C7 with the Legendre-type moments mu(k) = 1/(k+1) and n = 2. -/
theorem claim_C7_monicity_witness :
    (toPoly (moments.orthopoly (fun k => 1 / ((k : ℚ) + 1)) 2)).natDegree = 2
      ∧ (toPoly (moments.orthopoly (fun k => 1 / ((k : ℚ) + 1)) 2)).Monic :=
  claim_C7_monicity (fun k => 1 / ((k : ℚ) + 1)) 2
    (by
      intro k hk
      interval_cases k <;>
        norm_num [moments.inner, moments.contract, moments.sqnorm, moments.orthopoly,
          moments.xq, pmul, padd, psub, pneg, psmul])

/-- C8: determinism/idempotence — on any `weight_fn` instance and any degree,
a second call to `orthopoly n` returns exactly the first call's polynomial
(served from the cache entry written by the first call) and leaves the
instance state unchanged; the computation involves no hidden randomness. -/
theorem claim_C8_idempotent (w : moments.weight_fn) (n : ℕ) :
    ((w.orthopoly n).2).orthopoly n = ((w.orthopoly n).1, (w.orthopoly n).2) := by
  unfold moments.weight_fn.orthopoly
  have hstore := moments.orthopolyWithCache_store w.moment n w.cache
  have hhit := moments.orthopolyWithCache_hit w.moment hstore
  simp only [hhit]

/-- C2: under the contract that the external tridiagonal eigensolver
transforms the tracked first identity row only by Givens rotations (so the
sum of its squared entries is preserved), the weights returned by
`gauss_legendre n` sum to 2 and the weights returned by `gauss_hermite n`
sum to sqrt(pi) — the total masses mu(0) of the respective weight
functions — for every n >= 1. -/
theorem claim_C2_weight_sums (solver : List ℝ → List ℝ → List ℝ → List ℝ × List ℝ)
    (n : ℕ) (hs : golub_welsch.PreservesSumsq solver) (hn : 1 ≤ n) :
    (golub_welsch.gauss_legendre solver n).2.sum = 2
      ∧ (golub_welsch.gauss_hermite solver n).2.sum = Real.sqrt Real.pi := by
  unfold golub_welsch.gauss_legendre golub_welsch.gauss_hermite
  constructor
  · rw [golub_welsch.sum_map_mul_sq, hs, golub_welsch.sumsq_unitRow n hn, mul_one]
  · rw [golub_welsch.sum_map_mul_sq, hs, golub_welsch.sumsq_unitRow n hn, mul_one]

/-- Witness for C2 with the identity transformation as the eigensolver
(which trivially preserves the sum of squares) and n = 1. -/
theorem claim_C2_weight_sums_witness :
    (golub_welsch.gauss_legendre (fun d _ z => (d, z)) 1).2.sum = 2
      ∧ (golub_welsch.gauss_hermite (fun d _ z => (d, z)) 1).2.sum = Real.sqrt Real.pi :=
  claim_C2_weight_sums (fun d _ z => (d, z)) 1 (fun _ _ _ => rfl) (le_refl 1)

/-- C6: `ray.gauss_genlaguerre` builds the Jacobi diagonal 2k+alpha-1
(k = 1..n) while `ray.gamma` builds 2k+alpha-2, with identical off-diagonals,
so every diagonal entry differs by exactly 1; consequently, for every n >= 1
and every alpha, any eigensolver returning all eigenvalues of the banded
matrix (so that the returned nodes sum to its trace) returns different nodes
for the two functions. -/
theorem claim_C6_genlaguerre_vs_gamma (n : ℕ) (alpha : ℝ)
    (nodes1 nodes2 : Fin n → ℝ) (hn : 1 ≤ n)
    (h1 : ∑ i, nodes1 i = Matrix.trace
      (ray.jacobiMatrix n (ray.gauss_genlaguerre_diag n alpha)
        (ray.gauss_genlaguerre_offdiag alpha)))
    (h2 : ∑ i, nodes2 i = Matrix.trace
      (ray.jacobiMatrix n (ray.gamma_diag n alpha) (ray.gamma_offdiag alpha))) :
    (∀ k, ray.gauss_genlaguerre_diag n alpha k = ray.gamma_diag n alpha k + 1)
      ∧ ray.gauss_genlaguerre_offdiag alpha = ray.gamma_offdiag alpha
      ∧ nodes1 ≠ nodes2 := by
  refine ⟨fun k => ?_, rfl, fun heq => ?_⟩
  · simp only [ray.gauss_genlaguerre_diag, ray.gamma_diag]
    ring
  · rw [ray.trace_jacobiMatrix] at h1 h2
    have hsum : (∑ i, nodes1 i) = ∑ i, nodes2 i := by rw [heq]
    rw [h1, h2] at hsum
    have hdiff : (∑ i : Fin n, ray.gauss_genlaguerre_diag n alpha i)
        - (∑ i : Fin n, ray.gamma_diag n alpha i) = (n : ℝ) := by
      rw [← Finset.sum_sub_distrib]
      have hone : ∀ i : Fin n,
          ray.gauss_genlaguerre_diag n alpha i - ray.gamma_diag n alpha i = 1 := by
        intro i
        simp only [ray.gauss_genlaguerre_diag, ray.gamma_diag]
        ring
      rw [Finset.sum_congr rfl fun i _ => hone i]
      simp
    rw [hsum, sub_self] at hdiff
    have hzero : n = 0 := Nat.cast_eq_zero.mp hdiff.symm
    omega

/-- Witness for C6 at n = 1, alpha = 0, with node lists given by the traces
of the two 1x1 Jacobi matrices (1 and 0 respectively). -/
theorem claim_C6_genlaguerre_vs_gamma_witness :
    (∀ k : Fin 1, ray.gauss_genlaguerre_diag 1 0 k = ray.gamma_diag 1 0 k + 1)
      ∧ ray.gauss_genlaguerre_offdiag (0 : ℝ) = ray.gamma_offdiag (0 : ℝ)
      ∧ (fun _ : Fin 1 => (1 : ℝ)) ≠ (fun _ : Fin 1 => (0 : ℝ)) :=
  claim_C6_genlaguerre_vs_gamma 1 0 (fun _ => 1) (fun _ => 0) (le_refl 1)
    (by
      rw [ray.trace_jacobiMatrix]
      simp [ray.gauss_genlaguerre_diag]
      norm_num)
    (by
      rw [ray.trace_jacobiMatrix]
      simp [ray.gamma_diag])

/-- C9 counterexample: at the input (0, 1), `prod_trapz` fails already at the
first line `hx = 2/m1` with ZeroDivisionError, before ever reaching the
weights line, so it does not fail with the unbound-name error there. -/
theorem claim_C9_counterexample :
    square.prod_trapz 0 1 = Except.error PyErr.ZeroDivisionError
      ∧ square.prod_trapz 0 1 ≠ Except.error PyErr.NameError := by
  have h := square.prod_trapz_eq 0 1
  norm_num at h
  rw [h]
  exact ⟨rfl, fun hc => PyErr.noConfusion (Except.error.inj hc)⟩

/-- C9 amended: `prod_trapz` never returns a rule: for every m1, m2 >= 1 it
fails with the unbound-name error (NameError) when the weights line evaluates
the undefined `h` and `k`; when m1 = 0 or m2 = 0 it fails even earlier, with
ZeroDivisionError from `2/m1` or `2/m2`. -/
theorem claim_C9_always_fails (m1 m2 : ℕ) :
    square.prod_trapz m1 m2 =
      Except.error (if m1 = 0 ∨ m2 = 0 then PyErr.ZeroDivisionError
        else PyErr.NameError) :=
  square.prod_trapz_eq m1 m2

/-- C10: `line.gaussian n loc scale` returns the affine image
loc + scale*(hermegauss nodes) as nodes and the hermegauss weights divided by
sqrt(2*pi) as weights; the weights are independent of loc and scale, and
whenever the underlying hermegauss weights carry their total mass
sqrt(2*pi), the returned weights sum exactly to 1 — for every n >= 1 and all
loc, scale. -/
theorem claim_C10_gaussian (hermegauss : ℕ → List ℝ × List ℝ) (n : ℕ)
    (loc scale : ℝ) (hn : 1 ≤ n) :
    (line.gaussian hermegauss n loc scale).1
        = (hermegauss n).1.map (fun t => loc + scale * t)
      ∧ (line.gaussian hermegauss n loc scale).2 = (line.gaussian hermegauss n 0 1).2
      ∧ ((hermegauss n).2.sum = Real.sqrt (2 * Real.pi) →
          (line.gaussian hermegauss n loc scale).2.sum = 1) := by
  refine ⟨rfl, rfl, fun hsum => ?_⟩
  show ((hermegauss n).2.map fun w => w / Real.sqrt (2 * Real.pi)).sum = 1
  rw [line.sum_map_div, hsum]
  exact div_self (ne_of_gt (Real.sqrt_pos.mpr (by positivity)))

/-- Witness for C10 at a one-point rule carrying total mass sqrt(2*pi),
n = 1, loc = 5, scale = 3. -/
theorem claim_C10_gaussian_witness :
    (line.gaussian (fun _ => ([0], [Real.sqrt (2 * Real.pi)])) 1 5 3).2.sum = 1 :=
  (claim_C10_gaussian (fun _ => ([0], [Real.sqrt (2 * Real.pi)])) 1 5 3
    (le_refl 1)).2.2 (by simp)

end Cubit
